import Mathlib

/-!
Verification of the syntheca pipeline core against its specification.

The definitions below are shallow embeddings of the Python sources:
 * `src/syntheca/processing/cleaning.py` (`normalize_doi`),
 * `src/syntheca/processing/merging.py` (`deduplicate`),
 * `src/syntheca/processing/matching.py` (`resolve_missing_ids`),
 * `src/syntheca/clients/base.py` (`BaseClient.request` with tenacity retry),
 * `src/syntheca/clients/pure_oai.py` (`get_all_records` collection loop),
 * `src/syntheca/clients/pure_oai_lxml.py` (`producer` / `consumer`).

Machine-level conventions used throughout:
 * a nullable DataFrame cell is `Option String`;
 * a polars DataFrame is a column-name list plus a list of rows
   (each row a list of cells in column order);
 * polars `unique` with keep "any" and an unspecified row order is
   determinised as keep-first-in-input-order; the claim statements are
   phrased so they do not rest on that choice (counts and collapses hold
   under any survivor, and preservation claims are stated up to
   permutation);
 * the `Levenshtein.ratio` C routine is modelled by the documented indel
   similarity `(lensum - indelDist) / lensum` over rationals;
 * async calls that may raise are modelled with `Except`.
-/

namespace Syntheca

/-! ### String primitives (polars `str` namespace, python `str` methods) -/

/-- Whitespace test used by `str.strip_chars()` / python `str.strip()`. -/
def isWs (c : Char) : Bool := c.isWhitespace

/-- Trim whitespace from both ends (polars `str.strip_chars()` with no
argument, python `str.strip()`), on a character list. -/
def stripChars (s : List Char) : List Char :=
  ((s.dropWhile isWs).reverse.dropWhile isWs).reverse

/-- Lowercase every character (polars `str.to_lowercase()`, python
`str.lower()`); ASCII case mapping, which covers DOI strings. -/
def toLowerList (s : List Char) : List Char := s.map Char.toLower

/-- Does the regex-style pattern `pat` match at the start of `s`?
A `.` in the pattern matches any single character; every other character
matches only itself.  This is exactly the shape of the pattern
`"https://doi.org/"` that `cleaning.py` passes to `str.replace`, whose
default is regex matching. -/
def patMatchAt : List Char → List Char → Bool
  | [], _ => true
  | _ :: _, [] => false
  | p :: ps, c :: cs => (p = '.' || p = c) && patMatchAt ps cs

/-- Does `pat` match anywhere inside `s`? -/
def patOccurs (pat : List Char) : List Char → Bool
  | [] => patMatchAt pat []
  | c :: cs => patMatchAt pat (c :: cs) || patOccurs pat cs

/-- polars `str.replace(pat, "")`: delete the first (leftmost) match of
`pat`.  Each pattern character consumes exactly one input character, so a
match removes `pat.length` characters. -/
def replaceFirst (pat : List Char) : List Char → List Char
  | [] => []
  | c :: cs =>
    if patMatchAt pat (c :: cs) then (c :: cs).drop pat.length
    else c :: replaceFirst pat cs

/-- The pattern `"https://doi.org/"` from `cleaning.py` line 42 (the two
dots are regex wildcards because `str.replace` defaults to regex). -/
def doiPat : List Char := "https://doi.org/".data

/-- The per-value transformation of `normalize_doi` (cleaning.py lines
38-46) applied after `fill_null("")`: replace the first occurrence of the
prefix pattern, then lowercase, then trim whitespace — in that order. -/
def normDoiChars (s : List Char) : List Char :=
  stripChars (toLowerList (replaceFirst doiPat s))

/-- `normDoiChars` lifted to `String`. -/
def normDoiStr (s : String) : String := ⟨normDoiChars s.data⟩

/-! ### DataFrame model

A polars DataFrame is modelled as its list of column names plus its rows,
each row the list of (nullable) cells in column order.  Only string-typed
cells occur in the code paths under verification. -/

/-- A nullable string cell. -/
abbrev Cell := Option String

/-- A DataFrame: column names plus rows of cells in column order. -/
structure DF where
  cols : List String
  rows : List (List Cell)
  deriving DecidableEq, Repr

/-- A well-formed frame: every row has exactly one cell per column. -/
abbrev DF.wf (df : DF) : Prop := ∀ r ∈ df.rows, r.length = df.cols.length

/-- Position of a column name, if present. -/
def DF.colIdx (df : DF) (c : String) : Option Nat :=
  df.cols.findIdx? (· = c)

/-- The cells of column `c` (empty when the column is absent; a missing
cell in a ragged row reads as null). -/
def DF.getColVals (df : DF) (c : String) : List Cell :=
  match df.colIdx c with
  | none => []
  | some i => df.rows.map (fun r => (r[i]?).getD none)

/-- polars `with_columns(expr.alias(c))`: overwrite column `c` in place
when it exists, otherwise append it as the last column.  `vals` must have
one entry per row. -/
def DF.setCol (df : DF) (c : String) (vals : List Cell) : DF :=
  match df.colIdx c with
  | some i => ⟨df.cols, (df.rows.zip vals).map (fun rv => rv.1.set i rv.2)⟩
  | none => ⟨df.cols ++ [c], (df.rows.zip vals).map (fun rv => rv.1 ++ [rv.2])⟩

/-- Keep the rows whose cell in column `c` satisfies `p` (`filter` on a
single-column predicate); all rows are dropped when the column is absent
(the embedded code only filters on columns it just created). -/
def DF.filterOnCol (df : DF) (c : String) (p : Cell → Bool) : DF :=
  match df.colIdx c with
  | none => ⟨df.cols, []⟩
  | some i => ⟨df.cols, df.rows.filter (fun r => p ((r[i]?).getD none))⟩

/-- Drop column `c` (name and per-row cell). -/
def DF.dropCol (df : DF) (c : String) : DF :=
  match df.colIdx c with
  | none => df
  | some i => ⟨df.cols.eraseIdx i, df.rows.map (fun r => r.eraseIdx i)⟩

/-- Keep-first determinisation of polars `unique(subset=[c])` (whose
keep "any" leaves the surviving duplicate and the row order unspecified):
keep the first row in input order for every distinct value of column `c`. -/
def dedupRowsByKey (i : Nat) (seen : List Cell) :
    List (List Cell) → List (List Cell)
  | [] => []
  | r :: rs =>
    let k := (r[i]?).getD none
    if k ∈ seen then dedupRowsByKey i seen rs
    else r :: dedupRowsByKey i (k :: seen) rs

/-- polars `unique(subset=[c])`, determinised keep-first. -/
def DF.uniqueByCol (df : DF) (c : String) : DF :=
  match df.colIdx c with
  | none => df
  | some i => ⟨df.cols, dedupRowsByKey i [] df.rows⟩

/-- Keep-first determinisation of full-row polars `unique()`. -/
def dedupRowsFull (seen : List (List Cell)) :
    List (List Cell) → List (List Cell)
  | [] => []
  | r :: rs =>
    if r ∈ seen then dedupRowsFull seen rs
    else r :: dedupRowsFull (r :: seen) rs

/-- polars `unique()` on whole rows, determinised keep-first. -/
def DF.uniqueRows (df : DF) : DF := ⟨df.cols, dedupRowsFull [] df.rows⟩

/-- polars `concat([a, b], how="vertical")` (the embedded call sites
concatenate frames with identical schemas). -/
def DF.vconcat (a b : DF) : DF := ⟨a.cols, a.rows ++ b.rows⟩

/-! ### `cleaning.normalize_doi` and `merging.deduplicate` -/

/-- The column expression of `normalize_doi` (cleaning.py lines 38-46):
`cast(Utf8).fill_null("").str.replace("https://doi.org/", "")`
`.str.to_lowercase().str.strip_chars()`.  `fill_null` turns every null
into `""`; the remaining steps are elementwise on non-null values. -/
def normalizeDoiVals (col : List Cell) : List Cell :=
  col.map (fun v => some (normDoiStr (v.getD "")))

/-- `cleaning.normalize_doi(df, col_name, new_col)` (cleaning.py lines
17-46): when `col_name` is absent, create `new_col` as an all-null
placeholder column; otherwise write the normalized values into `new_col`. -/
def normalize_doi (df : DF) (colName newCol : String) : DF :=
  if colName ∈ df.cols then
    df.setCol newCol (normalizeDoiVals (df.getColVals colName))
  else
    df.setCol newCol (df.rows.map (fun _ => none))

/-- The title key `pl.col(title_col).str.to_lowercase().str.strip_chars()`
used by `deduplicate` for DOI-less rows (null titles stay null). -/
def normTitleCell (v : Cell) : Cell :=
  v.map (fun s => ⟨stripChars (toLowerList s.data)⟩)

/-- `merging.deduplicate(df, doi_col, title_col)` (merging.py lines
296-328): normalize DOIs into `_norm_doi`; split on `_norm_doi` null;
dedup the non-null part by `_norm_doi`; dedup the null part by the
normalized title when the title column exists; concatenate; final
full-row `unique()`. -/
def deduplicate (df : DF) (doiCol titleCol : String) : DF :=
  let dfNorm := normalize_doi df doiCol "_norm_doi"
  let dfWithDoi := dfNorm.filterOnCol "_norm_doi" (·.isSome)
  let dfNoDups :=
    if dfWithDoi.rows.length ≠ 0 then dfWithDoi.uniqueByCol "_norm_doi"
    else dfWithDoi
  let noDoi := dfNorm.filterOnCol "_norm_doi" (·.isNone)
  let noDoi :=
    if titleCol ∈ noDoi.cols ∧ noDoi.rows.length ≠ 0 then
      (((noDoi.setCol "_norm_title"
          ((noDoi.getColVals titleCol).map normTitleCell)).uniqueByCol
            "_norm_title").dropCol "_norm_title")
    else noDoi
  (dfNoDups.vconcat noDoi).uniqueRows

/-! ### `matching.resolve_missing_ids`

`Levenshtein.ratio` is modelled by its documented indel similarity:
`(lensum - dist) / lensum`, where `dist` is the edit distance with
insertions and deletions only (equivalently, substitution cost 2), and
the empty-vs-empty ratio is 1. -/

/-- Indel edit distance (insertions and deletions only). -/
def indelDist : List Char → List Char → Nat
  | [], ys => ys.length
  | _ :: xs, [] => xs.length + 1
  | x :: xs, y :: ys =>
    if x = y then indelDist xs ys
    else min (indelDist xs (y :: ys)) (indelDist (x :: xs) ys) + 1
termination_by xs ys => xs.length + ys.length

/-- `Levenshtein.ratio`: normalized indel similarity in `[0, 1]`. -/
def indelSim (a b : List Char) : ℚ :=
  if a.length + b.length = 0 then 1
  else ((a.length + b.length - indelDist a b : ℕ) : ℚ) / (a.length + b.length)

/-- The fields of an OpenAlex work object that `resolve_missing_ids`
reads (`display_name`, `corresponding_institution_ids`, `id`, `doi`);
a `None`/missing attribute is `none`, a missing id list is `[]`. -/
structure Work where
  display_name : Option String
  corresponding_institution_ids : List String
  id : Option String
  doi : Option String
  deriving DecidableEq, Repr

/-- `UT_OPENALEX_ID` (matching.py line 14). -/
def UT_OPENALEX_ID : String := "https://openalex.org/I94624287"

/-- Whether the work lists the UT institution as corresponding
(matching.py line 104). -/
def hasUtSignal (w : Work) : Bool :=
  UT_OPENALEX_ID ∈ w.corresponding_institution_ids

/-- `ratio(name.lower().strip(), str(t).lower().strip())`
(matching.py line 102). -/
def ratioScore (t : String) (w : Work) : ℚ :=
  indelSim (stripChars (toLowerList (w.display_name.getD "").data))
    (stripChars (toLowerList t.data))

/-- The bonused score of one candidate: the similarity ratio plus 0.05
when the UT institution is listed as corresponding (lines 102-106). -/
def workScore (t : String) (w : Work) : ℚ :=
  ratioScore t w + (if hasUtSignal w then 1 / 20 else 0)

/-- The `for w in works` selection loop (lines 98-109): best-so-far and
its score, updated only on a strictly greater score, starting from
`best = None`, `best_score = 0.0`. -/
def pickBestGo (t : String) : List Work → Option Work → ℚ → Option Work × ℚ
  | [], best, bestScore => (best, bestScore)
  | w :: ws, best, bestScore =>
    if bestScore < workScore t w then pickBestGo t ws (some w) (workScore t w)
    else pickBestGo t ws best bestScore

/-- Run the selection loop from its initial state. -/
def pickBest (t : String) (ws : List Work) : Option Work × ℚ :=
  pickBestGo t ws none 0

/-- `if best and best_score >= threshold` (line 111): the candidate
accepted for title `t`, if any. -/
def selectCandidate (threshold : ℚ) (t : String) (ws : List Work) :
    Option Work :=
  match pickBest t ws with
  | (some w, s) => if threshold ≤ s then some w else none
  | (none, _) => none

/-- The maximal bonused score over a candidate list (0 when empty):
the value `best_score` holds when the loop ends. -/
def maxScoreQ (t : String) (ws : List Work) : ℚ :=
  (ws.map (workScore t)).foldr max 0

/-- A row of the frame passed to `resolve_missing_ids`: the three named
columns it touches plus the untouched remainder of the row. -/
structure MRow where
  title : Option String
  id : Option String
  doi : Option String
  rest : List Cell
  deriving DecidableEq, Repr

/-- An OpenAlex client: per-title candidate lookup that may raise
(`client.get_works_by_title`), modelled with `Except`. -/
abbrev TitleClient := String → Except Unit (List Work)

/-- The `try/except` of matching.py lines 93-97: a raising lookup is
caught and treated as an empty works list. -/
def lookupWorks (client : TitleClient) (t : String) : List Work :=
  match client t with
  | .ok ws => ws
  | .error _ => []

/-- The unique titles needing resolution (lines 82-89): rows with a null
id and a non-null title; polars `Series.unique` determinised as
keep-first. -/
def titlesToSearch (rows : List MRow) : List String :=
  ((rows.filter fun r => r.id.isNone && r.title.isSome).filterMap
    (·.title)).eraseDups

/-- One accepted candidate row (`search_title`, `oa_id`, `oa_doi`),
lines 111-118. -/
structure Cand where
  search_title : String
  oa_id : Option String
  oa_doi : Option String
  deriving DecidableEq, Repr

/-- The `candidates` list built by the per-title loop (lines 92-118). -/
def buildCandidates (client : TitleClient) (threshold : ℚ)
    (titles : List String) : List Cand :=
  titles.filterMap fun t =>
    (selectCandidate threshold t (lookupWorks client t)).map
      fun w => ⟨t, w.id, w.doi⟩

/-- The left join on `title = search_title` followed by the two
`when(col.is_null()).then(...).otherwise(col)` fills and the drop of the
helper columns (lines 123-140), per row.  Search titles are unique, so
the join matches each row to at most one candidate; a null title matches
nothing. -/
def fillRow (cands : List Cand) (r : MRow) : MRow :=
  let c := r.title.bind fun t => cands.find? (fun cd => cd.search_title = t)
  { r with
    id := if r.id.isNone then c.bind (·.oa_id) else r.id
    doi := if r.doi.isNone then c.bind (·.oa_doi) else r.doi }

/-- `matching.resolve_missing_ids` (matching.py lines 53-142); the
default `threshold` at the Python call boundary is 0.9. -/
def resolve_missing_ids (client : TitleClient) (threshold : ℚ)
    (rows : List MRow) : List MRow :=
  let cands := buildCandidates client threshold (titlesToSearch rows)
  if cands.isEmpty then rows else rows.map (fillRow cands)

/-- Per-row frame check for `resolve_missing_ids`: a non-null id and a
non-null doi are preserved, the title and every remaining field are
unchanged. -/
def preservesRow (r rOut : MRow) : Bool :=
  decide (r.id.isSome → rOut.id = r.id) &&
  decide (r.doi.isSome → rOut.doi = r.doi) &&
  decide (rOut.title = r.title) && decide (rOut.rest = r.rest)

/-! ### `base.BaseClient.request` with tenacity retry

One call to `BaseClient.request` is driven by a server behaviour
`Nat → AttemptOutcome` giving, for each attempt number (0-based), either
a transport-level failure (`httpx.RequestError`) or a response status.
`response.raise_for_status()` raises `httpx.HTTPStatusError` on any
non-2xx status.  tenacity is configured with
`retry_if_exception(_is_retriable_exception)`, `stop_after_attempt(4)`
and `wait_exponential(min=1, max=20)` (base.py lines 89-94). -/

/-- What the transport does on one attempt. -/
inductive AttemptOutcome where
  | netError
  | status (code : Nat)
  deriving DecidableEq, Repr

/-- The exception classes `_is_retriable_exception` distinguishes. -/
inductive ExcKind where
  | net
  | httpStatus (code : Nat)
  deriving DecidableEq, Repr

/-- One attempt of the `request` body (base.py lines 104-115): a 2xx
response is returned, any other response raises `HTTPStatusError`, a
transport failure raises `RequestError`. -/
def runAttempt : AttemptOutcome → Except ExcKind Nat
  | .netError => .error .net
  | .status c =>
    if 200 ≤ c ∧ c < 300 then .ok c else .error (.httpStatus c)

/-- `_is_retriable_exception` (base.py lines 26-43): network-level
request errors, HTTP 429, and 5xx. -/
def is_retriable_exception : ExcKind → Bool
  | .net => true
  | .httpStatus c => c = 429 || (500 ≤ c && c < 600)

/-- Result of a `request` call, carrying the number of attempts made. -/
inductive ReqResult where
  | success (code : Nat) (attempts : Nat)
  | failure (attempts : Nat)
  deriving DecidableEq, Repr

/-- Attempts consumed by a request, successful or not. -/
def ReqResult.attempts : ReqResult → Nat
  | .success _ n => n
  | .failure n => n

/-- The tenacity driver: attempt `n` (0-based) runs the body; a
retriable exception retries while fewer than 4 attempts were made
(`stop_after_attempt(4)`), any other exception propagates at once.  The
fuel argument only justifies termination and never runs out when started
at 4. -/
def retryGo (server : Nat → AttemptOutcome) : Nat → Nat → ReqResult
  | 0, n => .failure n
  | fuel + 1, n =>
    match runAttempt (server n) with
    | .ok c => .success c (n + 1)
    | .error e =>
      if is_retriable_exception e ∧ n + 1 < 4 then retryGo server fuel (n + 1)
      else .failure (n + 1)

/-- `BaseClient.request` under the tenacity decorator. -/
def request (server : Nat → AttemptOutcome) : ReqResult :=
  retryGo server 4 0

/-- `wait_exponential(min=1, max=20)` for the wait after attempt `n`
(1-based): the doubling sequence clamped into `[1, 20]` seconds. -/
def waitSeconds (n : Nat) : Nat := max 1 (min (2 ^ (n - 1)) 20)

/-- Did attempt outcome `o` raise a retriable exception? -/
def isRetriableFailure (o : AttemptOutcome) : Bool :=
  match runAttempt o with
  | .ok _ => false
  | .error e => is_retriable_exception e

/-! ### `pure_oai.get_all_records` and the `pure_oai_lxml` pipeline -/

/-- One parsed `ListRecords` page: its records (already flattened) and
the optional resumption-token text. -/
structure OAIPage (α : Type) where
  recs : List α
  token : Option String
  deriving DecidableEq, Repr

/-- The per-collection `while url:` loop of `get_all_records`
(pure_oai.py lines 398-432), driven by the server's pages; returns the
number of requests issued and the collected records.  The loop body
issues one request, parses the page, appends its records — and then hits
the unconditional `break` on line 424, so the resumption-token handling
on lines 426-432 is dead code and no second iteration ever runs. -/
def getCollectionData {α : Type} (server : Nat → OAIPage α) :
    Nat × List α :=
  let page := server 0
  (1, page.recs)

/-- The same loop as its docstring and the dead code on lines 425-432
describe it (the loop the `break` cuts short): follow the resumption
token until a page carries none.  `fuel` bounds the chain length for
termination. -/
def getCollectionDataChase {α : Type} (server : Nat → OAIPage α) :
    Nat → Nat → List α → Nat × List α
  | 0, n, acc => (n, acc)
  | fuel + 1, n, acc =>
    let page := server n
    let acc := acc ++ page.recs
    match page.token with
    | some _ => getCollectionDataChase server fuel (n + 1) acc
    | none => (n + 1, acc)

/-- What one fetch of the lxml producer can come back with
(pure_oai_lxml.py lines 264-289): a raised exception, a
`noRecordsMatch` body, or a parsed page root plus optional token. -/
inductive FetchOutcome (α : Type) where
  | fetchErr
  | noRecordsMatch
  | page (root : α) (token : Option String)

/-- An element of the producer/consumer queue: a parsed page root or the
`None` sentinel. -/
inductive QItem (α : Type) where
  | item (root : α)
  | sentinel

/-- The root carried by a queue element, if it is not the sentinel. -/
def QItem.rootOf : QItem α → Option α
  | .item r => some r
  | .sentinel => none

/-- Sentinel test. -/
def QItem.isSentinel : QItem α → Bool
  | .item _ => false
  | .sentinel => true

/-- The producer's `while url:` loop (lines 265-287) as the sequence of
queue puts it performs, driven by the successive fetch outcomes: an
exception or a `noRecordsMatch` body clears `url` and ends the loop; a
page is enqueued and the loop continues exactly when it carries a
token. -/
def producerLoop {α : Type} : List (FetchOutcome α) → List (QItem α)
  | [] => []
  | .fetchErr :: _ => []
  | .noRecordsMatch :: _ => []
  | .page r tok :: rest =>
    QItem.item r ::
      (match tok with
       | some _ => producerLoop rest
       | none => [])

/-- The whole producer (lines 264-289): the loop's puts followed by the
single `await queue.put(None)` after the loop. -/
def producer {α : Type} (outs : List (FetchOutcome α)) : List (QItem α) :=
  producerLoop outs ++ [QItem.sentinel]

/-- The consumer's `while True:` loop (lines 291-345) over the queue
contents in FIFO order: `none` when the queue runs out before a sentinel
(the real consumer would block on `queue.get()` forever), otherwise the
roots it processed before breaking on the sentinel. -/
def consumerRun {α : Type} : List (QItem α) → Option (List α)
  | [] => none
  | .sentinel :: _ => some []
  | .item r :: rest => (consumerRun rest).map (r :: ·)

/-! ### Concrete scenario inputs -/

/-- Server responding 429, 429, then 200 (spec scenario 2). -/
def server429 : Nat → AttemptOutcome :=
  fun n => if n < 2 then .status 429 else .status 200

/-- Server always responding 404 (spec scenario 2). -/
def server404 : Nat → AttemptOutcome := fun _ => .status 404

/-- A two-page cursor chain: the first page carries records 0, 1 and
`resumptionToken=ABC`, the second carries record 2 and no token
(spec scenario 1). -/
def twoPageServer : Nat → OAIPage Nat :=
  fun n => if n = 0 then ⟨[0, 1], some "ABC"⟩ else ⟨[2], none⟩

/-- Two rows with null DOIs and distinct titles. -/
def dfNullDois : DF :=
  ⟨["doi", "title"], [[none, some "Paper A"], [none, some "Paper B"]]⟩

/-- Two rows with distinct DOIs and distinct titles: duplicate-free under
any reading of the normalization. -/
def dfDistinct : DF :=
  ⟨["doi", "title"],
   [[some "10.1/a", some "t1"], [some "10.2/b", some "t2"]]⟩

/-- One-row duplicate-free frame for witnesses. -/
def dfOneRow : DF := ⟨["doi", "title"], [[some "10.1/a", some "t1"]]⟩

/-- A single-column frame holding a DOI with an upper-case
`HTTPS://DOI.ORG/` prefix. -/
def dfUpper : DF := ⟨["doi"], [[some "HTTPS://DOI.ORG/10.1/X"]]⟩

/-- The rows `normalize_doi df c "_norm_doi"` produces when `c` exists
and `_norm_doi` is fresh: each input row with its normalized key
appended. -/
def normRows (df : DF) (c : String) : List (List Cell) :=
  (df.rows.zip (normalizeDoiVals (df.getColVals c))).map
    fun rv => rv.1 ++ [rv.2]

/-- A candidate work whose display name exactly matches the witness
title. -/
def workW : Work :=
  ⟨some "Deep Learning for X", [], some "https://openalex.org/W1",
   some "10.9/w1"⟩

/-- A client that raises for title "A" and returns `workW` for "B". -/
def clientW : TitleClient :=
  fun t => if t = "A" then .error () else .ok [workW]

/-- Rows for the `resolve_missing_ids` witnesses. -/
def rowsW : List MRow :=
  [⟨some "A", none, none, []⟩,
   ⟨some "Deep Learning for X", none, some "10.0/keep", [some "x"]⟩]

/-! ### Retry-policy lemmas (base.py) -/

theorem retryGo_attempts_le (server : Nat → AttemptOutcome) :
    ∀ fuel n, (retryGo server fuel n).attempts ≤ max (n + 1) 4 := by
  intro fuel
  induction fuel with
  | zero => intro n; simp [retryGo, ReqResult.attempts]
  | succ fuel ih =>
    intro n
    rw [retryGo]
    cases hr : runAttempt (server n) with
    | ok c => simp [ReqResult.attempts]
    | error e =>
      by_cases hc : is_retriable_exception e = true ∧ n + 1 < 4
      · simp only [hc, and_self, if_true]
        have := ih (n + 1)
        omega
      · simp only [hc, if_false, ReqResult.attempts]
        omega

theorem retryGo_retried_retriable (server : Nat → AttemptOutcome) :
    ∀ fuel n k, n ≤ k → k + 1 < (retryGo server fuel n).attempts →
      isRetriableFailure (server k) = true := by
  intro fuel
  induction fuel with
  | zero =>
    intro n k hnk hk
    simp [retryGo, ReqResult.attempts] at hk
    omega
  | succ fuel ih =>
    intro n k hnk hk
    rw [retryGo] at hk
    cases hr : runAttempt (server n) with
    | ok c => rw [hr] at hk; simp [ReqResult.attempts] at hk; omega
    | error e =>
      rw [hr] at hk
      by_cases hc : is_retriable_exception e = true ∧ n + 1 < 4
      · simp only [hc, and_self, if_true] at hk
        rcases Nat.eq_or_lt_of_le hnk with h | h
        · subst h; rw [isRetriableFailure, hr]; exact hc.1
        · exact ih (n + 1) k h hk
      · simp only [hc, if_false, ReqResult.attempts] at hk
        omega

/-! ### Producer/consumer lemmas (pure_oai_lxml.py) -/

theorem producerLoop_no_sentinel {α : Type} (outs : List (FetchOutcome α)) :
    ∀ i ∈ producerLoop outs, i.isSentinel = false := by
  induction outs with
  | nil => simp [producerLoop]
  | cons o rest ih =>
    cases o with
    | fetchErr => simp [producerLoop]
    | noRecordsMatch => simp [producerLoop]
    | page r tok =>
      cases tok with
      | some t =>
        intro i hi
        rcases List.mem_cons.mp hi with h | h
        · subst h; rfl
        · exact ih i h
      | none =>
        intro i hi
        rcases List.mem_cons.mp hi with h | h
        · subst h; rfl
        · simp at h

theorem consumerRun_of_no_sentinel {α : Type} :
    ∀ q : List (QItem α), (∀ i ∈ q, QItem.isSentinel i = false) →
      consumerRun (q ++ [QItem.sentinel]) = some (q.filterMap QItem.rootOf) := by
  intro q
  induction q with
  | nil => intro _; simp [consumerRun]
  | cons i rest ih =>
    intro h
    cases i with
    | item r =>
      have hrest : ∀ j ∈ rest, QItem.isSentinel j = false := by
        intro j hj; exact h j (List.mem_cons_of_mem _ hj)
      simp [consumerRun, List.filterMap_cons, QItem.rootOf, ih hrest]
    | sentinel =>
      have := h QItem.sentinel (List.mem_cons_self _ _)
      simp [QItem.isSentinel] at this

/-! ### Claim theorems -/

/-- C5: `BaseClient.request` retries only network-level request errors,
HTTP 429 and 5xx statuses; it stops after at most 4 attempts in total
with exponential backoff clamped to `[1, 20]` seconds; any other raised
status (e.g. 404) propagates after exactly one attempt; the sequence
429, 429, 200 takes exactly 3 attempts and returns the 200 response. -/
theorem claim5_retry_policy :
    (∀ e, is_retriable_exception e = true ↔
      (e = ExcKind.net ∨ ∃ c, e = ExcKind.httpStatus c ∧
        (c = 429 ∨ (500 ≤ c ∧ c < 600)))) ∧
    (∀ server, (request server).attempts ≤ 4) ∧
    (∀ server, ((List.range ((request server).attempts - 1)).all
      (fun k => isRetriableFailure (server k))) = true) ∧
    request server404 = ReqResult.failure 1 ∧
    request server429 = ReqResult.success 200 3 ∧
    (∀ n, 1 ≤ waitSeconds n ∧ waitSeconds n ≤ 20) := by
  refine ⟨?_, ?_, ?_, by decide, by decide, ?_⟩
  · intro e
    cases e with
    | net => simp [is_retriable_exception]
    | httpStatus c =>
      simp only [is_retriable_exception, Bool.or_eq_true, Bool.and_eq_true,
        decide_eq_true_eq]
      constructor
      · rintro (h | ⟨h1, h2⟩)
        · exact Or.inr ⟨c, rfl, Or.inl h⟩
        · exact Or.inr ⟨c, rfl, Or.inr ⟨h1, h2⟩⟩
      · rintro (h | ⟨c2, hc2, h⟩)
        · simp at h
        · injection hc2 with hcc
          subst hcc
          tauto
  · intro server
    exact (retryGo_attempts_le server 4 0).trans (by norm_num)
  · intro server
    simp only [List.all_eq_true, List.mem_range, request]
    intro k hk
    exact retryGo_retried_retriable server 4 0 k (Nat.zero_le k) (by omega)
  · intro n
    exact ⟨le_max_left _ _, max_le (by norm_num) (min_le_right _ _)⟩

/-- C9: the lxml producer enqueues the `None` sentinel exactly once, as
the last queue element, after the loop's final page — including runs that
end in a raised fetch or a `noRecordsMatch` body — and the consumer
terminates exactly on dequeuing it (`consumerRun` is `some _`, never the
blocked `none`), having consumed every page enqueued before it. -/
theorem claim9_sentinel {α : Type} (outs : List (FetchOutcome α)) :
    (producer outs).countP (·.isSentinel) = 1 ∧
    (producer outs).getLast? = some QItem.sentinel ∧
    consumerRun (producer outs) =
      some ((producerLoop outs).filterMap QItem.rootOf) := by
  refine ⟨?_, ?_, ?_⟩
  · have h0 : (producerLoop outs).countP (·.isSentinel) = 0 :=
      List.countP_eq_zero.mpr
        (by intro i hi; simp [producerLoop_no_sentinel outs i hi])
    rw [producer, List.countP_append, h0]
    rfl
  · rw [producer]
    exact List.getLast?_concat _
  · exact consumerRun_of_no_sentinel _ (producerLoop_no_sentinel outs)

/-- C1 (code bug): on the two-page chain — first page with records 0, 1
and `resumptionToken=ABC`, second page with record 2 and no token — the
collection loop of `pure_oai.get_all_records` issues exactly 1 request
and returns only the first page's records, because the unconditional
`break` on line 424 makes the resumption-token handling on lines 426-432
unreachable; the token-chasing loop that the method's docstring and that
dead code describe would issue exactly 2 requests and return the union
of both pages, as the claim states. -/
theorem claim1_break_bug_eval :
    getCollectionData twoPageServer = (1, [0, 1]) ∧
    getCollectionDataChase twoPageServer 2 0 [] = (2, [0, 1, 2]) := by
  decide

/-- C2 (code bug): on two rows with null DOIs and distinct titles
"Paper A" / "Paper B", `deduplicate` returns a single row — both rows
received the normalized-DOI key `""` from `normalize_doi`'s
`fill_null("")`, so the documented title-based fallback (which would keep
both rows, one per distinct title) never runs: the `_norm_doi is null`
branch is unreachable whenever the DOI column exists. -/
theorem claim2_null_doi_collapse_eval :
    (deduplicate dfNullDois "doi" "title").rows =
      [[none, some "Paper A", some ""]] := by
  decide

/-! ### String lemmas towards DOI-normalization idempotence -/

theorem toNat_ofNat_valid {m : Nat} (h : m.isValidChar) :
    (Char.ofNat m).toNat = m := by
  rw [Char.ofNat, dif_pos h]
  rfl

theorem toLower_eq_ite (c : Char) :
    c.toLower =
      if c.toNat ≥ 65 ∧ c.toNat ≤ 90 then Char.ofNat (c.toNat + 32) else c :=
  rfl

theorem toLower_idem (c : Char) :
    Char.toLower (Char.toLower c) = Char.toLower c := by
  by_cases h : c.toNat ≥ 65 ∧ c.toNat ≤ 90
  · have hd : c.toLower = Char.ofNat (c.toNat + 32) := by
      rw [toLower_eq_ite, if_pos h]
    have ht : (Char.ofNat (c.toNat + 32)).toNat = c.toNat + 32 :=
      toNat_ofNat_valid (Or.inl (by omega))
    rw [hd, toLower_eq_ite, ht, if_neg (by omega)]
  · have hd : c.toLower = c := by rw [toLower_eq_ite, if_neg h]
    rw [hd, hd]

theorem toNat_mem_of_isWs {c : Char} (h : isWs c = true) :
    c.toNat = 32 ∨ c.toNat = 9 ∨ c.toNat = 13 ∨ c.toNat = 10 := by
  simp only [isWs, Char.isWhitespace, Bool.or_eq_true, decide_eq_true_eq] at h
  rcases h with ((h | h) | h) | h
  · exact Or.inl (congrArg Char.toNat h)
  · exact Or.inr (Or.inl (congrArg Char.toNat h))
  · exact Or.inr (Or.inr (Or.inl (congrArg Char.toNat h)))
  · exact Or.inr (Or.inr (Or.inr (congrArg Char.toNat h)))

theorem isWs_toLower (c : Char) : isWs (Char.toLower c) = isWs c := by
  by_cases h : c.toNat ≥ 65 ∧ c.toNat ≤ 90
  · have hd : c.toLower = Char.ofNat (c.toNat + 32) := by
      rw [toLower_eq_ite, if_pos h]
    have ht : (c.toLower).toNat = c.toNat + 32 := by
      rw [hd]; exact toNat_ofNat_valid (Or.inl (by omega))
    have h1 : isWs c = false := by
      cases hw : isWs c with
      | false => rfl
      | true => exact absurd (toNat_mem_of_isWs hw) (by omega)
    have h2 : isWs c.toLower = false := by
      cases hw : isWs c.toLower with
      | false => rfl
      | true => exact absurd (toNat_mem_of_isWs hw) (by omega)
    rw [h1, h2]
  · rw [toLower_eq_ite, if_neg h]

theorem toLowerList_idem (l : List Char) :
    toLowerList (toLowerList l) = toLowerList l := by
  rw [toLowerList, toLowerList, List.map_map]
  exact List.map_congr_left fun c _ => toLower_idem c

theorem toLowerList_stripChars (l : List Char) :
    toLowerList (stripChars l) = stripChars (toLowerList l) := by
  have hf : (isWs ∘ Char.toLower) = isWs := funext isWs_toLower
  rw [stripChars, stripChars, toLowerList, toLowerList,
    List.dropWhile_map, hf, ← List.map_reverse, List.dropWhile_map, hf,
    ← List.map_reverse]

theorem stripChars_eq_rdropWhile (l : List Char) :
    stripChars l = List.rdropWhile isWs (l.dropWhile isWs) := rfl

theorem stripChars_idem (l : List Char) :
    stripChars (stripChars l) = stripChars l := by
  rw [stripChars_eq_rdropWhile, stripChars_eq_rdropWhile]
  obtain ⟨t, ht⟩ := List.rdropWhile_prefix isWs (l.dropWhile isWs)
  have hid : (List.rdropWhile isWs (l.dropWhile isWs)).dropWhile isWs =
      List.rdropWhile isWs (l.dropWhile isWs) := by
    cases hx : List.rdropWhile isWs (l.dropWhile isWs) with
    | nil => rfl
    | cons c cs =>
      have hhead : (l.dropWhile isWs).head? = some c := by
        rw [← ht, hx]; rfl
      have hc : isWs c = false := by
        have hnot := List.head?_dropWhile_not isWs l
        rw [hhead] at hnot
        exact hnot
      rw [List.dropWhile_cons_of_neg (by simp [hc])]
  rw [hid, List.rdropWhile_idempotent]

theorem replaceFirst_of_not_occurs (pat : List Char) :
    ∀ s, patOccurs pat s = false → replaceFirst pat s = s := by
  intro s
  induction s with
  | nil => intro _; rfl
  | cons c cs ih =>
    intro h
    rw [patOccurs, Bool.or_eq_false_iff] at h
    rw [replaceFirst, if_neg (by simp [h.1]), ih h.2]

/-- C6 (counterexample): `normalize_doi` replaces the (case-sensitive)
`https://doi.org/` pattern before lowercasing, so an upper-case
`HTTPS://DOI.ORG/` prefix survives the first pass (only lowered) and is
removed by the second: normalization is not idempotent, neither on the
single string `"HTTPS://DOI.ORG/10.1/X"` nor on the one-cell DOI column
holding it. -/
theorem claim6_counterexample :
    normDoiStr (normDoiStr "HTTPS://DOI.ORG/10.1/X") ≠
      normDoiStr "HTTPS://DOI.ORG/10.1/X" ∧
    normalize_doi (normalize_doi dfUpper "doi" "doi") "doi" "doi" ≠
      normalize_doi dfUpper "doi" "doi" := by
  constructor <;> decide

/-- C6 (amended): `normalize_doi` is idempotent on every string whose
once-normalized value no longer contains a match of the prefix pattern —
in particular on every DOI whose `https://doi.org/` prefix, if present,
is already lower-case.  Inputs whose normalized form still matches the
pattern (an upper-case prefix that the first pass lowercases) change
again on a second pass. -/
theorem claim6_amended_thm (s : String)
    (h : patOccurs doiPat (normDoiChars s.data) = false) :
    normDoiStr (normDoiStr s) = normDoiStr s := by
  show String.mk (normDoiChars (normDoiChars s.data)) = String.mk (normDoiChars s.data)
  congr 1
  have hx : normDoiChars (normDoiChars s.data) =
      stripChars (toLowerList (normDoiChars s.data)) := by
    rw [normDoiChars, replaceFirst_of_not_occurs _ _ h]
  rw [hx]
  have hlow : toLowerList (normDoiChars s.data) = normDoiChars s.data := by
    rw [normDoiChars, toLowerList_stripChars, toLowerList_idem,
      ← normDoiChars]
  rw [hlow, normDoiChars, stripChars_idem]

/-- Witness for C6 (amended) at the already-lower-case DOI
`"https://doi.org/10.1/ABC "`. -/
theorem claim6_amended_witness :
    patOccurs doiPat (normDoiChars "https://doi.org/10.1/ABC ".data) = false ∧
    normDoiStr (normDoiStr "https://doi.org/10.1/ABC ") =
      normDoiStr "https://doi.org/10.1/ABC " :=
  ⟨by decide, claim6_amended_thm "https://doi.org/10.1/ABC " (by decide)⟩

/-! ### DataFrame lemmas for `normalize_doi` and `deduplicate` -/

theorem findIdx_append_fresh (cols : List String) (n : String)
    (hn : n ∉ cols) :
    List.findIdx? (· = n) (cols ++ [n]) = some cols.length := by
  induction cols with
  | nil => simp [List.findIdx?_cons]
  | cons c cs ih =>
    have hcn : ¬(c = n) := fun h => hn (h ▸ List.mem_cons_self c cs)
    have hcs : n ∉ cs := fun h => hn (List.mem_cons_of_mem _ h)
    simp [List.findIdx?_cons, hcn, ih hcs]

theorem colIdx_none_of_not_mem (df : DF) (n : String) (hn : n ∉ df.cols) :
    df.colIdx n = none := by
  rw [DF.colIdx, List.findIdx?_eq_none_iff]
  intro x hx
  simp only [decide_eq_false_iff_not]
  exact fun heq => hn (heq ▸ hx)

theorem setCol_fresh (df : DF) (n : String) (vals : List Cell)
    (hn : n ∉ df.cols) :
    df.setCol n vals =
      ⟨df.cols ++ [n],
       (df.rows.zip vals).map fun rv => rv.1 ++ [rv.2]⟩ := by
  rw [DF.setCol, colIdx_none_of_not_mem df n hn]

theorem colIdx_setCol_fresh (df : DF) (n : String) (vals : List Cell)
    (hn : n ∉ df.cols) :
    (df.setCol n vals).colIdx n = some df.cols.length := by
  rw [setCol_fresh df n vals hn, DF.colIdx]
  exact findIdx_append_fresh df.cols n hn

theorem rows_zip_append_get (i : Nat) :
    ∀ (rows : List (List Cell)) (vals : List Cell),
      rows.length = vals.length → (∀ r ∈ rows, r.length = i) →
      ((rows.zip vals).map fun rv =>
          ((rv.1 ++ [rv.2])[i]?).getD none) = vals := by
  intro rows
  induction rows with
  | nil =>
    intro vals h _
    cases vals with
    | nil => rfl
    | cons v vs => simp at h
  | cons r rs ih =>
    intro vals hlen hwf
    cases vals with
    | nil => simp at hlen
    | cons v vs =>
      have hr : r.length = i := hwf r (List.mem_cons_self _ _)
      have hget : ((r ++ [v])[i]?).getD none = v := by
        rw [← hr, List.getElem?_concat_length]
        rfl
      simp only [List.zip_cons_cons, List.map_cons, hget]
      rw [ih vs (by simpa using hlen)
        (fun x hx => hwf x (List.mem_cons_of_mem _ hx))]

theorem getColVals_length_of_mem (df : DF) (c : String) (hc : c ∈ df.cols) :
    (df.getColVals c).length = df.rows.length := by
  rw [DF.getColVals]
  cases h : df.colIdx c with
  | none =>
    rw [DF.colIdx, List.findIdx?_eq_none_iff] at h
    have := h c hc
    simp at this
  | some i => simp

theorem getColVals_setCol_fresh (df : DF) (n : String) (vals : List Cell)
    (hn : n ∉ df.cols) (hlen : vals.length = df.rows.length) (hwf : df.wf) :
    (df.setCol n vals).getColVals n = vals := by
  rw [DF.getColVals, colIdx_setCol_fresh df n vals hn,
    setCol_fresh df n vals hn]
  show ((df.rows.zip vals).map (fun rv => rv.1 ++ [rv.2])).map
      (fun r => (r[df.cols.length]?).getD none) = vals
  rw [List.map_map]
  exact rows_zip_append_get df.cols.length df.rows vals hlen.symm hwf

theorem normalizeDoiVals_length (col : List Cell) :
    (normalizeDoiVals col).length = col.length := by
  simp [normalizeDoiVals]

theorem zip_self_map {α β : Type} (g : α → β) (l : List α) :
    l.zip (l.map g) = l.map fun a => (a, g a) := by
  induction l with
  | nil => rfl
  | cons a as ih => simp [ih]

/-- C10: when the DOI column exists, `normalize_doi` never writes a null
into the normalized column, and every null source entry normalizes to
the empty string — so after normalization all DOI-less rows share the
single key `""` instead of staying null. -/
theorem claim10_no_null_norm (df : DF) (c n : String) (hc : c ∈ df.cols)
    (hn : n ∉ df.cols) (hwf : df.wf) :
    (((normalize_doi df c n).getColVals n).all (·.isSome)) = true ∧
    ((((df.getColVals c).zip ((normalize_doi df c n).getColVals n)).all
      fun p => !p.1.isNone || decide (p.2 = some "")) = true) := by
  have hvals : (normalize_doi df c n).getColVals n =
      normalizeDoiVals (df.getColVals c) := by
    rw [normalize_doi, if_pos hc]
    exact getColVals_setCol_fresh df n _ hn
      (by rw [normalizeDoiVals_length, getColVals_length_of_mem df c hc])
      hwf
  constructor
  · rw [hvals, List.all_eq_true]
    intro v hv
    rw [normalizeDoiVals] at hv
    obtain ⟨w, _, rfl⟩ := List.mem_map.mp hv
    rfl
  · rw [hvals, normalizeDoiVals]
    rw [zip_self_map, List.all_eq_true]
    intro p hp
    obtain ⟨v, _, rfl⟩ := List.mem_map.mp hp
    cases v with
    | none => decide
    | some s => simp

theorem dedupRowsByKey_id (i : Nat) :
    ∀ (rows : List (List Cell)) (seen : List Cell),
      (rows.map fun r => (r[i]?).getD none).Nodup →
      (∀ r ∈ rows, ((r[i]?).getD none) ∉ seen) →
      dedupRowsByKey i seen rows = rows := by
  intro rows
  induction rows with
  | nil => intro seen _ _; rfl
  | cons r rs ih =>
    intro seen hnd hseen
    rw [List.map_cons, List.nodup_cons] at hnd
    show (if ((r[i]?).getD none) ∈ seen then dedupRowsByKey i seen rs
          else r :: dedupRowsByKey i (((r[i]?).getD none) :: seen) rs) =
        r :: rs
    rw [if_neg (hseen r (List.mem_cons_self _ _)), ih _ hnd.2]
    intro x hx
    rw [List.mem_cons]
    rintro (heq | hmem)
    · exact hnd.1 (heq ▸ List.mem_map_of_mem _ hx)
    · exact hseen x (List.mem_cons_of_mem _ hx) hmem

theorem dedupRowsFull_id :
    ∀ (rows : List (List Cell)) (seen : List (List Cell)),
      rows.Nodup → (∀ r ∈ rows, r ∉ seen) →
      dedupRowsFull seen rows = rows := by
  intro rows
  induction rows with
  | nil => intro seen _ _; rfl
  | cons r rs ih =>
    intro seen hnd hseen
    have hnd2 := List.nodup_cons.mp hnd
    rw [dedupRowsFull, if_neg (hseen r (List.mem_cons_self _ _)),
      ih _ hnd2.2]
    intro x hx
    rw [List.mem_cons]
    rintro (heq | hmem)
    · exact hnd2.1 (heq ▸ hx)
    · exact hseen x (List.mem_cons_of_mem _ hx) hmem

theorem rows_zip_append_erase (i : Nat) :
    ∀ (rows : List (List Cell)) (vals : List Cell),
      rows.length = vals.length → (∀ r ∈ rows, r.length = i) →
      ((rows.zip vals).map fun rv => (rv.1 ++ [rv.2]).eraseIdx i) = rows := by
  intro rows
  induction rows with
  | nil =>
    intro vals h _
    cases vals with
    | nil => rfl
    | cons v vs => simp at h
  | cons r rs ih =>
    intro vals hlen hwf
    cases vals with
    | nil => simp at hlen
    | cons v vs =>
      have hr : r.length = i := hwf r (List.mem_cons_self _ _)
      have herase : (r ++ [v]).eraseIdx i = r := by
        rw [← hr, List.eraseIdx_append_of_length_le (Nat.le_refl _)]
        simp
      simp only [List.zip_cons_cons, List.map_cons, herase]
      rw [ih vs (by simpa using hlen)
        (fun x hx => hwf x (List.mem_cons_of_mem _ hx))]

/-- C3 (counterexample): even on a duplicate-free two-row frame (distinct
DOIs, distinct titles), `deduplicate` is not the identity — it leaves the
`_norm_doi` helper column it created in the returned frame. -/
theorem claim3_counterexample :
    deduplicate dfDistinct "doi" "title" ≠ dfDistinct := by
  decide

/-- C3 (amended): on a well-formed frame whose DOI column exists, whose
normalized DOI keys (nulls normalizing to `""`, so at most one DOI-less
row) are pairwise distinct, and which has no `_norm_doi` column yet,
`deduplicate` drops no row and alters no row, but it is not the
identity: it appends the `_norm_doi` helper column, and polars
`unique(keep="any", maintain_order=False)` leaves the row order
unspecified — so dropping that column recovers exactly the input rows
up to order (a permutation) over the input's columns.  The statement is
phrased up to permutation precisely so that it does not rest on the
keep-first determinisation of `unique`: with pairwise-distinct keys no
row is dropped under any resolution of polars' unspecified survivor and
order. -/
theorem claim3_amended_thm (df : DF) (c t : String) (hc : c ∈ df.cols)
    (hn : "_norm_doi" ∉ df.cols) (hwf : df.wf)
    (hkeys : ((df.getColVals c).map
        fun v => normDoiStr (v.getD "")).Nodup) :
    ((deduplicate df c t).dropCol "_norm_doi").rows.Perm df.rows ∧
    ((deduplicate df c t).dropCol "_norm_doi").cols = df.cols ∧
    (deduplicate df c t).cols = df.cols ++ ["_norm_doi"] := by
  have hvlen : (normalizeDoiVals (df.getColVals c)).length =
      df.rows.length := by
    rw [normalizeDoiVals_length, getColVals_length_of_mem df c hc]
  have h1 : normalize_doi df c "_norm_doi" =
      ⟨df.cols ++ ["_norm_doi"], normRows df c⟩ := by
    rw [normalize_doi, if_pos hc, setCol_fresh df _ _ hn]
    rfl
  have hidx : List.findIdx? (· = "_norm_doi")
      (df.cols ++ ["_norm_doi"]) = some df.cols.length :=
    findIdx_append_fresh df.cols _ hn
  have hfr : (normRows df c).map
      (fun r => (r[df.cols.length]?).getD none) =
      normalizeDoiVals (df.getColVals c) := by
    rw [normRows, List.map_map]
    exact rows_zip_append_get df.cols.length df.rows _ hvlen.symm hwf
  have hvnodup : (normalizeDoiVals (df.getColVals c)).Nodup := by
    have h2 : normalizeDoiVals (df.getColVals c) =
        ((df.getColVals c).map fun v => normDoiStr (v.getD "")).map some := by
      rw [normalizeDoiVals, List.map_map]
      rfl
    rw [h2]
    exact hkeys.map (Option.some_injective _)
  have hsome : ∀ r ∈ normRows df c,
      ((r[df.cols.length]?).getD none).isSome := by
    intro r hr
    have hmem : ((r[df.cols.length]?).getD none) ∈
        normalizeDoiVals (df.getColVals c) := by
      rw [← hfr]
      exact List.mem_map_of_mem _ hr
    rw [normalizeDoiVals] at hmem
    obtain ⟨w, _, hw⟩ := List.mem_map.mp hmem
    rw [← hw]
    rfl
  have hded : deduplicate df c t =
      ⟨df.cols ++ ["_norm_doi"], normRows df c⟩ := by
    have hfilt1 : DF.filterOnCol ⟨df.cols ++ ["_norm_doi"], normRows df c⟩
        "_norm_doi" (·.isSome) =
        ⟨df.cols ++ ["_norm_doi"], normRows df c⟩ := by
      simp only [DF.filterOnCol, DF.colIdx, hidx]
      rw [List.filter_eq_self.mpr hsome]
    have hfilt2 : DF.filterOnCol ⟨df.cols ++ ["_norm_doi"], normRows df c⟩
        "_norm_doi" (·.isNone) =
        ⟨df.cols ++ ["_norm_doi"], ([] : List (List Cell))⟩ := by
      simp only [DF.filterOnCol, DF.colIdx, hidx]
      have hnil : (normRows df c).filter
          (fun r => ((r[df.cols.length]?).getD none).isNone) = [] := by
        rw [List.filter_eq_nil_iff]
        intro r hr habs
        have h2 := hsome r hr
        rw [Option.isNone_iff_eq_none] at habs
        rw [habs] at h2
        simp at h2
      rw [hnil]
    have huniq : DF.uniqueByCol ⟨df.cols ++ ["_norm_doi"], normRows df c⟩
        "_norm_doi" = ⟨df.cols ++ ["_norm_doi"], normRows df c⟩ := by
      simp only [DF.uniqueByCol, DF.colIdx, hidx]
      rw [dedupRowsByKey_id df.cols.length (normRows df c) []
        (hfr ▸ hvnodup) (by simp)]
    have hcond : ¬(t ∈ (df.cols ++ ["_norm_doi"]) ∧
        ([] : List (List Cell)).length ≠ 0) := by
      rintro ⟨_, habs⟩
      exact habs rfl
    have hnodup2 : (normRows df c).Nodup :=
      List.Nodup.of_map _ (hfr ▸ hvnodup)
    simp only [deduplicate]
    rw [h1, hfilt1, hfilt2, huniq, ite_self, if_neg hcond]
    simp only [DF.vconcat, DF.uniqueRows, List.append_nil]
    rw [dedupRowsFull_id (normRows df c) [] hnodup2 (by simp)]
  have hdrop : (deduplicate df c t).dropCol "_norm_doi" = df := by
    rw [hded]
    simp only [DF.dropCol, DF.colIdx, hidx]
    rw [List.eraseIdx_append_of_length_le (Nat.le_refl _)]
    simp only [Nat.sub_self, List.eraseIdx_cons_zero, List.append_nil]
    rw [normRows, List.map_map]
    show (⟨df.cols,
        (df.rows.zip (normalizeDoiVals (df.getColVals c))).map
          fun rv => (rv.1 ++ [rv.2]).eraseIdx df.cols.length⟩ : DF) = df
    rw [rows_zip_append_erase df.cols.length df.rows _ hvlen.symm hwf]
  refine ⟨?_, ?_, ?_⟩
  · rw [hdrop]
  · rw [hdrop]
  · rw [hded]

/-- Witness for C3 (amended) at a one-row duplicate-free frame. -/
theorem claim3_amended_witness :
    ((deduplicate dfOneRow "doi" "title").dropCol "_norm_doi").rows.Perm
      dfOneRow.rows ∧
    ((deduplicate dfOneRow "doi" "title").dropCol "_norm_doi").cols =
      dfOneRow.cols ∧
    (deduplicate dfOneRow "doi" "title").cols =
      dfOneRow.cols ++ ["_norm_doi"] :=
  claim3_amended_thm dfOneRow "doi" "title" (by decide) (by decide)
    (by decide) (by decide)

theorem preservesRow_refl (r : MRow) : preservesRow r r = true := by
  simp [preservesRow]

theorem zip_self_all_preserves (rows : List MRow) :
    ((rows.zip rows).all fun p => preservesRow p.1 p.2) = true := by
  induction rows with
  | nil => rfl
  | cons r rs ih =>
    simp [List.zip_cons_cons, List.all_cons, preservesRow_refl r, ih]

theorem preservesRow_fillRow (cands : List Cand) (r : MRow) :
    preservesRow r (fillRow cands r) = true := by
  cases hid : r.id with
  | none =>
    cases hdoi : r.doi with
    | none => simp [preservesRow, fillRow, hid, hdoi]
    | some w => simp [preservesRow, fillRow, hid, hdoi]
  | some v =>
    cases hdoi : r.doi with
    | none => simp [preservesRow, fillRow, hid, hdoi]
    | some w => simp [preservesRow, fillRow, hid, hdoi]

/-- C7: `resolve_missing_ids` never overwrites an existing match: every
row keeps its non-null id and non-null doi, its title and all remaining
fields are untouched, and the row count is preserved — only null id/doi
entries can be filled from lookup results. -/
theorem claim7_no_overwrite (client : TitleClient) (threshold : ℚ)
    (rows : List MRow) :
    (resolve_missing_ids client threshold rows).length = rows.length ∧
    ((rows.zip (resolve_missing_ids client threshold rows)).all
      fun p => preservesRow p.1 p.2) = true := by
  simp only [resolve_missing_ids]
  by_cases hc :
      (buildCandidates client threshold (titlesToSearch rows)).isEmpty
  · rw [if_pos hc]
    exact ⟨rfl, zip_self_all_preserves rows⟩
  · rw [if_neg hc]
    refine ⟨by rw [List.length_map], ?_⟩
    rw [zip_self_map, List.all_eq_true]
    intro p hp
    obtain ⟨r, _, rfl⟩ := List.mem_map.mp hp
    exact preservesRow_fillRow _ r

/-- C8: a per-title lookup that raises is caught and equivalent to one
returning zero candidates: replacing the failing title's answer by the
empty list leaves the whole matching pass unchanged, so the exception
never propagates and the remaining titles are processed normally. -/
theorem claim8_lookup_failure (client : TitleClient) (threshold : ℚ)
    (rows : List MRow) (t0 : String) (he : client t0 = .error ()) :
    resolve_missing_ids client threshold rows =
      resolve_missing_ids
        (fun t => if t = t0 then .ok [] else client t) threshold rows := by
  have hl : ∀ t, lookupWorks client t =
      lookupWorks (fun t => if t = t0 then .ok [] else client t) t := by
    intro t
    by_cases ht : t = t0
    · subst ht
      rw [lookupWorks, lookupWorks, he, if_pos rfl]
    · rw [lookupWorks, lookupWorks, if_neg ht]
  have hb : buildCandidates client threshold (titlesToSearch rows) =
      buildCandidates (fun t => if t = t0 then .ok [] else client t)
        threshold (titlesToSearch rows) := by
    rw [buildCandidates, buildCandidates]
    exact List.filterMap_congr fun x _ => by rw [hl x]
  simp only [resolve_missing_ids, hb]

/-- Witness for C8: `clientW` raises for title "A"; the pass result
equals the one where "A" answers with zero candidates. -/
theorem claim8_lookup_failure_witness :
    resolve_missing_ids clientW (9 / 10) rowsW =
      resolve_missing_ids
        (fun t => if t = "A" then .ok [] else clientW t) (9 / 10) rowsW :=
  claim8_lookup_failure clientW (9 / 10) rowsW "A" rfl

/-! ### Fuzzy-selection lemmas (matching.py) -/

theorem indelDist_le : ∀ a b : List Char,
    indelDist a b ≤ a.length + b.length := by
  intro a
  induction a with
  | nil => intro b; simp [indelDist]
  | cons x xs ih =>
    intro b
    induction b with
    | nil => simp [indelDist]
    | cons y ys ihb =>
      by_cases h : x = y
      · have h1 := ih ys
        simp only [indelDist, if_pos h, List.length_cons]
        omega
      · have h1 := ih (y :: ys)
        have h2 := ihb
        have h3 := min_le_left (indelDist xs (y :: ys))
          (indelDist (x :: xs) ys)
        simp only [indelDist, if_neg h, List.length_cons] at *
        omega

theorem indelSim_nonneg (a b : List Char) : 0 ≤ indelSim a b := by
  rw [indelSim]
  split
  · norm_num
  · apply div_nonneg
    · exact_mod_cast Nat.zero_le _
    · positivity

theorem indelSim_le_one (a b : List Char) : indelSim a b ≤ 1 := by
  rw [indelSim]
  split
  · exact le_refl 1
  · rename_i h
    have hpos : 0 < a.length + b.length := Nat.pos_of_ne_zero h
    rw [div_le_one (by exact_mod_cast hpos)]
    exact_mod_cast Nat.sub_le _ _

theorem ratioScore_nonneg (t : String) (w : Work) : 0 ≤ ratioScore t w :=
  indelSim_nonneg _ _

theorem ratioScore_le_one (t : String) (w : Work) : ratioScore t w ≤ 1 :=
  indelSim_le_one _ _

theorem le_foldr_max (b : ℚ) (l : List ℚ) : b ≤ l.foldr max b := by
  induction l with
  | nil => exact le_refl b
  | cons x xs ih => exact le_trans ih (le_max_right x _)

theorem foldr_max_shift (b c : ℚ) (l : List ℚ) (h : c ≤ b) :
    l.foldr max b = max b (l.foldr max c) := by
  induction l with
  | nil => simp [max_eq_left h]
  | cons x xs ih =>
    simp only [List.foldr_cons, ih]
    rw [max_left_comm]

theorem foldr_max_attained (b : ℚ) (l : List ℚ) :
    l.foldr max b = b ∨ l.foldr max b ∈ l := by
  induction l with
  | nil => exact Or.inl rfl
  | cons x xs ih =>
    rw [List.foldr_cons]
    rcases le_or_lt x (xs.foldr max b) with h | h
    · rw [max_eq_right h]
      rcases ih with h2 | h2
      · exact Or.inl h2
      · exact Or.inr (List.mem_cons_of_mem _ h2)
    · rw [max_eq_left h.le]
      exact Or.inr (List.mem_cons_self _ _)

theorem pickBestGo_snd (t : String) :
    ∀ (ws : List Work) (best : Option Work) (b : ℚ),
      (pickBestGo t ws best b).2 = (ws.map (workScore t)).foldr max b := by
  intro ws
  induction ws with
  | nil => intro best b; rfl
  | cons w ws ih =>
    intro best b
    simp only [pickBestGo, List.map_cons, List.foldr_cons]
    by_cases h : b < workScore t w
    · rw [if_pos h, ih]
      exact foldr_max_shift (workScore t w) b _ h.le
    · rw [if_neg h, ih]
      rw [max_eq_right (le_trans (not_lt.mp h) (le_foldr_max b _))]

theorem pickBestGo_fst (t : String) :
    ∀ (ws : List Work) (best : Option Work) (b : ℚ),
      (pickBestGo t ws best b).1 =
        if b < (ws.map (workScore t)).foldr max b then
          ws.find? fun w =>
            workScore t w = (ws.map (workScore t)).foldr max b
        else best := by
  intro ws
  induction ws with
  | nil =>
    intro best b
    simp [pickBestGo]
  | cons w ws ih =>
    intro best b
    simp only [pickBestGo, List.map_cons, List.foldr_cons]
    by_cases h : b < workScore t w
    · rw [if_pos h, ih]
      have hshift : (ws.map (workScore t)).foldr max (workScore t w) =
          max (workScore t w) ((ws.map (workScore t)).foldr max b) :=
        foldr_max_shift (workScore t w) b _ h.le
      simp only [hshift]
      have hsM : workScore t w ≤
          max (workScore t w) ((ws.map (workScore t)).foldr max b) :=
        le_max_left _ _
      rw [if_pos (lt_of_lt_of_le h hsM)]
      by_cases he : workScore t w =
          max (workScore t w) ((ws.map (workScore t)).foldr max b)
      · rw [if_neg (by rw [← he]; exact lt_irrefl _)]
        exact (List.find?_cons_of_pos _ (by exact decide_eq_true he)).symm
      · rw [if_pos (lt_of_le_of_ne hsM he)]
        exact (List.find?_cons_of_neg _
          (by simp only [decide_eq_true_eq]; exact he)).symm
    · rw [if_neg h, ih]
      have hsb : workScore t w ≤ b := not_lt.mp h
      have hmax : max (workScore t w)
          ((ws.map (workScore t)).foldr max b) =
          (ws.map (workScore t)).foldr max b :=
        max_eq_right (le_trans hsb (le_foldr_max b _))
      simp only [hmax]
      by_cases hb : b < (ws.map (workScore t)).foldr max b
      · have hne : workScore t w ≠ (ws.map (workScore t)).foldr max b :=
          ne_of_lt (lt_of_le_of_lt hsb hb)
        rw [if_pos hb, if_pos hb]
        exact (List.find?_cons_of_neg _
          (by simp only [decide_eq_true_eq]; exact hne)).symm
      · rw [if_neg hb, if_neg hb]

/-- C4: candidate selection scores each work with the Levenshtein
similarity ratio (in `[0, 1]`) of the case-folded trimmed strings plus a
fixed 0.05 bonus for the UT corresponding-institution signal; for any
positive threshold (the call-site default is 0.9), a candidate is
accepted iff the maximal bonused score reaches the threshold, and the
accepted candidate is the first one in return order attaining that
maximum — a deterministic function of the candidate list, including on
ties. -/
theorem claim4_fuzzy_selection (t : String) (ws : List Work)
    (threshold : ℚ) (hθ : 0 < threshold) :
    ((selectCandidate threshold t ws).isSome ↔
      threshold ≤ maxScoreQ t ws) ∧
    (threshold ≤ maxScoreQ t ws →
      selectCandidate threshold t ws =
        ws.find? fun w => workScore t w = maxScoreQ t ws) ∧
    (∀ w ∈ ws, workScore t w =
        ratioScore t w + (if hasUtSignal w then 1 / 20 else 0) ∧
      0 ≤ ratioScore t w ∧ ratioScore t w ≤ 1) := by
  have hM0 : 0 ≤ maxScoreQ t ws := le_foldr_max 0 _
  have hthird : ∀ w ∈ ws, workScore t w =
      ratioScore t w + (if hasUtSignal w then 1 / 20 else 0) ∧
      0 ≤ ratioScore t w ∧ ratioScore t w ≤ 1 := by
    intro w _
    exact ⟨rfl, ratioScore_nonneg t w, ratioScore_le_one t w⟩
  have hmain : ((selectCandidate threshold t ws).isSome ↔
      threshold ≤ maxScoreQ t ws) ∧
      (threshold ≤ maxScoreQ t ws →
        selectCandidate threshold t ws =
          ws.find? fun w => workScore t w = maxScoreQ t ws) := by
    rcases hpb : pickBest t ws with ⟨fst, snd⟩
    have hsnd : snd = maxScoreQ t ws := by
      have h2 := pickBestGo_snd t ws none 0
      rw [pickBest] at hpb
      rw [hpb] at h2
      rw [maxScoreQ]
      exact h2
    have hfst : fst = if 0 < maxScoreQ t ws then
        ws.find? (fun w => workScore t w = maxScoreQ t ws) else none := by
      have h2 := pickBestGo_fst t ws none 0
      rw [pickBest] at hpb
      rw [hpb] at h2
      rw [maxScoreQ]
      exact h2
    cases fst with
    | some w =>
      have hsel : selectCandidate threshold t ws =
          if threshold ≤ snd then some w else none := by
        rw [selectCandidate, hpb]
      by_cases h0 : 0 < maxScoreQ t ws
      · rw [if_pos h0] at hfst
        constructor
        · rw [hsel, hsnd]
          by_cases hθM : threshold ≤ maxScoreQ t ws
          · simp [hθM]
          · simp [hθM]
        · intro hθM
          rw [hsel, hsnd, if_pos hθM]
          exact hfst
      · rw [if_neg h0] at hfst
        simp at hfst
    | none =>
      have hsel : selectCandidate threshold t ws = none := by
        rw [selectCandidate, hpb]
      by_cases h0 : 0 < maxScoreQ t ws
      · rw [if_pos h0] at hfst
        have hatt := foldr_max_attained 0 (ws.map (workScore t))
        rcases hatt with hb | hmem
        · rw [maxScoreQ] at h0
          rw [hb] at h0
          exact absurd h0 (lt_irrefl 0)
        · obtain ⟨w, hw, hfw⟩ := List.mem_map.mp hmem
          have hfind : (ws.find? fun w =>
              workScore t w = maxScoreQ t ws).isSome := by
            rw [List.find?_isSome]
            exact ⟨w, hw, by rw [maxScoreQ]; simp [hfw]⟩
          rw [← hfst] at hfind
          simp at hfind
      · have hMz : maxScoreQ t ws = 0 :=
          le_antisymm (not_lt.mp h0) hM0
        constructor
        · rw [hsel, hMz]
          constructor
          · intro habs
            simp at habs
          · intro habs
            exact absurd (lt_of_lt_of_le hθ habs) (lt_irrefl 0)
        · intro hθM
          rw [hMz] at hθM
          exact absurd (lt_of_lt_of_le hθ hθM) (lt_irrefl 0)
  exact ⟨hmain.1, hmain.2, hthird⟩

theorem indelDist_self : ∀ a : List Char, indelDist a a = 0 := by
  intro a
  induction a with
  | nil => simp [indelDist]
  | cons x xs ih => simp [indelDist, ih]

theorem indelSim_self (a : List Char) : indelSim a a = 1 := by
  rw [indelSim]
  split
  · rfl
  · rename_i h
    rw [indelDist_self, Nat.sub_zero]
    push_cast
    rw [div_self]
    have h2 : (0 : ℚ) < (a.length : ℚ) + (a.length : ℚ) := by
      have h3 : 0 < a.length + a.length := Nat.pos_of_ne_zero h
      exact_mod_cast h3
    exact ne_of_gt h2

theorem maxScore_deepLearning :
    maxScoreQ "Deep Learning for X" [workW] = 1 := by
  have hscore : workScore "Deep Learning for X" workW = 1 := by
    have hr : ratioScore "Deep Learning for X" workW =
        indelSim (stripChars (toLowerList "Deep Learning for X".data))
          (stripChars (toLowerList "Deep Learning for X".data)) := rfl
    have hut : hasUtSignal workW = false := by decide
    rw [workScore, hr, indelSim_self, hut]
    norm_num
  rw [maxScoreQ, List.map_cons, List.map_nil, List.foldr_cons,
    List.foldr_nil, hscore]
  exact max_eq_left (by norm_num)

/-- Witness for C4: the exact-match candidate scores 1 and is selected
at the default threshold 0.9 as the first maximal candidate. -/
theorem claim4_fuzzy_selection_witness :
    selectCandidate (9 / 10) "Deep Learning for X" [workW] =
      [workW].find? fun w => workScore "Deep Learning for X" w =
        maxScoreQ "Deep Learning for X" [workW] :=
  (claim4_fuzzy_selection "Deep Learning for X" [workW] (9 / 10)
      (by norm_num)).2.1
    (by rw [maxScore_deepLearning]; norm_num)

/-- Witness for C10 at the two-null-DOI frame. -/
theorem claim10_witness :
    (((normalize_doi dfNullDois "doi" "_norm_doi").getColVals
        "_norm_doi").all (·.isSome)) = true ∧
    ((((dfNullDois.getColVals "doi").zip
        ((normalize_doi dfNullDois "doi" "_norm_doi").getColVals
          "_norm_doi")).all
      fun p => !p.1.isNone || decide (p.2 = some "")) = true) :=
  claim10_no_null_norm dfNullDois "doi" "_norm_doi" (by decide) (by decide)
    (by decide)

end Syntheca
